import Mathlib

/-!
Verification of the `LocalCache` TTL/LRU cache and the `cached` memoizing
decorator from `src/infra/local_cache.py`.

Modelling choices (shallow embedding):
* `OrderedDict` is modelled as an association list `List (String × α)` in
  insertion order: the head is the oldest (least recently used) entry and
  new entries are appended at the end.  `popitem(last=False)` removes the
  head; `d[k] = v` replaces in place when `k` is present and appends
  otherwise (`odAssign`); `d.pop(k)` removes the first binding of `k`
  (`popKey`).
* `time.time()` is modelled by an explicit integer parameter `now` passed to
  each operation; timestamps are integers.
* Operations that can raise `KeyError` in Python (`popitem` on an empty
  dict, subscripting `_timestamps` with a missing key) return `Option`:
  `none` models the raised exception.
* Python `None` results flowing through the decorator are modelled by using
  `Option β` as the cached value type there; a returned object is `none`
  exactly when Python would see `None`.
-/

/-- Dictionary lookup on an association list: the value of the first binding
of `key`, if any. -/
def lkp : List (String × α) → String → Option α
  | [], _ => none
  | (k, v) :: rest, key => if k = key then some v else lkp rest key

/-- `key in d` for an association list. -/
def hasKey (l : List (String × α)) (key : String) : Bool :=
  (lkp l key).isSome

/-- `d.pop(key)`: the value of the first binding of `key` together with the
list with that binding removed; `none` when `key` is absent (`KeyError`). -/
def popKey : List (String × α) → String → Option (α × List (String × α))
  | [], _ => none
  | (k, v) :: rest, key =>
    if k = key then some (v, rest)
    else
      match popKey rest key with
      | none => none
      | some (v', rest') => some (v', (k, v) :: rest')

/-- `d[key] = v` on an (ordered) dictionary: replace in place when present,
append at the end otherwise. -/
def odAssign (l : List (String × α)) (key : String) (v : α) :
    List (String × α) :=
  match l with
  | [] => [(key, v)]
  | (k, w) :: rest =>
    if k = key then (key, v) :: rest else (k, w) :: odAssign rest key v

/-- The keys of an association list, in order. -/
def keysOf (l : List (String × α)) : List String := l.map Prod.fst

/-- State of `LocalCache`: the ordered main store, the timestamp dictionary,
and the two construction-time parameters. -/
structure LocalCache (α : Type) where
  _cache : List (String × α)
  _timestamps : List (String × Int)
  _max_size : Nat
  _ttl : Int
  deriving Repr, DecidableEq

namespace LocalCache

/-- `LocalCache.__init__`: no validation of `max_size` or `ttl` is
performed; the cache always starts empty. -/
def init (max_size : Nat) (ttl : Int) : LocalCache α :=
  ⟨[], [], max_size, ttl⟩

/-- `LocalCache.delete`: remove the key from the main store and from the
timestamp dictionary when present; no-op when absent.  Returns `none` when
`self._timestamps.pop(key)` would raise `KeyError` (key cached but no
timestamp recorded). -/
def delete (c : LocalCache α) (key : String) : Option (LocalCache α) :=
  match popKey c._cache key with
  | none => some c
  | some (_, rest) =>
    match popKey c._timestamps key with
    | none => none
    | some (_, ts) => some { c with _cache := rest, _timestamps := ts }

/-- `LocalCache.get`: miss on an absent key; expired entries are deleted and
reported as a miss; a live hit moves the key to the most-recently-used end.
Returns `none` when `self._timestamps[key]` would raise `KeyError`. -/
def get (c : LocalCache α) (key : String) (now : Int) :
    Option (Option α × LocalCache α) :=
  if hasKey c._cache key = false then some (none, c)
  else
    match lkp c._timestamps key with
    | none => none
    | some t =>
      if now - t > c._ttl then
        match c.delete key with
        | none => none
        | some c2 => some (none, c2)
      else
        match popKey c._cache key with
        | none => none
        | some (v, rest) =>
          some (some v, { c with _cache := odAssign rest key v })

/-- `LocalCache.set`: pop the old slot when the key is present, otherwise
evict the least-recently-used (front) entry when the store is full; then
insert the new binding at the most-recently-used end and record `now` as its
timestamp.  Returns `none` when `popitem` on an empty store would raise
`KeyError` (only possible when `max_size = 0`). -/
def set (c : LocalCache α) (key : String) (v : α) (now : Int) :
    Option (LocalCache α) :=
  let step : Option (List (String × α)) :=
    if hasKey c._cache key then
      match popKey c._cache key with
      | none => none
      | some (_, rest) => some rest
    else if c._cache.length ≥ c._max_size then
      match c._cache with
      | [] => none
      | _ :: rest => some rest
    else some c._cache
  match step with
  | none => none
  | some l =>
    some { c with _cache := odAssign l key v,
                  _timestamps := odAssign c._timestamps key now }

/-- `LocalCache.clear`: drop every entry and every timestamp. -/
def clear (c : LocalCache α) : LocalCache α :=
  { c with _cache := [], _timestamps := [] }

end LocalCache

/-- Run a sequence of `set` calls, left to right, all at time `now`. -/
def setAll (c : LocalCache α) (kvs : List (String × α)) (now : Int) :
    Option (LocalCache α) :=
  match kvs with
  | [] => some c
  | (k, v) :: rest =>
    match c.set k v now with
    | none => none
    | some c' => setAll c' rest now

/-- The default cache key of the `cached` decorator:
`f"{func.__name__}:{str(args)}:{str(kwargs)}"`. -/
def defaultKey (funcName argsStr kwargsStr : String) : String :=
  funcName ++ ":" ++ argsStr ++ ":" ++ kwargsStr

/-- Observable outcome of one call through the decorator's `wrapper`: the
returned (Python) value, the cache state afterwards, and whether the
underlying function was invoked on this call. -/
structure CallResult (β : Type) (γ : Type) where
  result : Option β
  cache : LocalCache (Option β)
  invoked : Bool
  deriving Repr

/-- The cache key used by `wrapper` for a given call: `cache_key_fn(*args,
**kwargs)` when a key function was supplied, the default scheme otherwise. -/
def wKey {γ : Type} (funcName : String) (cacheKeyFn : Option (γ → String))
    (argsStr kwargsStr : γ → String) (a : γ) : String :=
  match cacheKeyFn with
  | some g => g a
  | none => defaultKey funcName (argsStr a) (kwargsStr a)

/-- One call through the `wrapper` closure produced by `cached`:
compute the key (caller-supplied key function, or the default scheme),
try `get`, and on a miss (a `None` result, whether from absence, expiry, or
a stored `None`) invoke `f` and `set` the result.  `γ` is the argument type,
`Option β` the Python result type (`none` = Python `None`). -/
def wrapper (funcName : String) (cacheKeyFn : Option (γ → String))
    (argsStr kwargsStr : γ → String) (f : γ → Option β)
    (cache : LocalCache (Option β)) (a : γ) (now : Int) :
    Option (CallResult β γ) :=
  let key := wKey funcName cacheKeyFn argsStr kwargsStr a
  match cache.get key now with
  | none => none
  | some (r, c1) =>
    match r.join with
    | some b => some ⟨some b, c1, false⟩
    | none =>
      let res := f a
      match c1.set key res now with
      | none => none
      | some c2 => some ⟨res, c2, true⟩

/-- The fresh cache the decorator attaches to each wrapped function:
`LocalCache(ttl=ttl)`, whose `max_size` is the default `1000`. -/
def cachedInit (ttl : Int) : LocalCache (Option β) :=
  LocalCache.init 1000 ttl

/-- Well-formedness: every cached key has a recorded timestamp, so `get`'s
expiry check is defined. -/
def WF (c : LocalCache α) : Prop :=
  ∀ k ∈ keysOf c._cache, (lkp c._timestamps k).isSome = true

instance (c : LocalCache α) : Decidable (WF c) := by
  unfold WF; infer_instance

/-- The states of a cache reachable from construction by any sequence of
successful operations. -/
inductive Reachable (ms : Nat) (ttl : Int) : LocalCache α → Prop
  | init : Reachable ms ttl (LocalCache.init ms ttl)
  | set {c c' : LocalCache α} {k : String} {v : α} {now : Int} :
      Reachable ms ttl c → c.set k v now = some c' → Reachable ms ttl c'
  | get {c c' : LocalCache α} {k : String} {now : Int} {r : Option α} :
      Reachable ms ttl c → c.get k now = some (r, c') → Reachable ms ttl c'
  | del {c c' : LocalCache α} {k : String} :
      Reachable ms ttl c → c.delete k = some c' → Reachable ms ttl c'
  | clr {c : LocalCache α} :
      Reachable ms ttl c → Reachable ms ttl c.clear


/-! ### Association-list lemmas -/

theorem lkp_eq_none_iff {l : List (String × α)} {k : String} :
    lkp l k = none ↔ k ∉ keysOf l := by
  induction l with
  | nil => simp [lkp, keysOf]
  | cons p rest ih =>
    obtain ⟨k0, v0⟩ := p
    by_cases h : k0 = k
    · subst h; simp [lkp, keysOf]
    · simp [lkp, keysOf, h, ih, Ne.symm h]

theorem hasKey_iff_mem {l : List (String × α)} {k : String} :
    hasKey l k = true ↔ k ∈ keysOf l := by
  rw [hasKey, Option.isSome_iff_ne_none, ne_eq, lkp_eq_none_iff, not_not]

theorem hasKey_eq_false_iff {l : List (String × α)} {k : String} :
    hasKey l k = false ↔ k ∉ keysOf l := by
  rw [Bool.eq_false_iff, ne_eq, hasKey_iff_mem]

theorem popKey_isSome {l : List (String × α)} {k : String} :
    (popKey l k).isSome = hasKey l k := by
  induction l with
  | nil => rfl
  | cons p rest ih =>
    obtain ⟨k0, v0⟩ := p
    by_cases h : k0 = k
    · simp [popKey, hasKey, lkp, h]
    · simp only [popKey, hasKey, lkp, if_neg h]
      rw [← hasKey, ← ih]
      cases hp : popKey rest k with
      | none => simp
      | some pr => obtain ⟨v', rest'⟩ := pr; simp

theorem popKey_eq_none_iff {l : List (String × α)} {k : String} :
    popKey l k = none ↔ hasKey l k = false := by
  rw [← popKey_isSome]
  cases popKey l k <;> simp

theorem lkp_of_popKey {l rest : List (String × α)} {k : String} {v : α}
    (h : popKey l k = some (v, rest)) : lkp l k = some v := by
  induction l generalizing rest with
  | nil => simp [popKey] at h
  | cons p tl ih =>
    obtain ⟨k0, v0⟩ := p
    by_cases hk : k0 = k
    · subst hk
      simp only [popKey, if_pos, Option.some.injEq, Prod.mk.injEq] at h
      simp [lkp, h.1]
    · simp only [popKey, if_neg hk] at h
      cases hp : popKey tl k with
      | none => rw [hp] at h; simp at h
      | some pr =>
        obtain ⟨v', rest'⟩ := pr
        rw [hp] at h
        simp only [Option.some.injEq, Prod.mk.injEq] at h
        obtain ⟨hv, -⟩ := h
        subst hv
        simp [lkp, hk, ih hp]

theorem lkp_popKey_ne {l rest : List (String × α)} {k k' : String} {v : α}
    (h : popKey l k = some (v, rest)) (hne : k' ≠ k) :
    lkp rest k' = lkp l k' := by
  induction l generalizing rest with
  | nil => simp [popKey] at h
  | cons p tl ih =>
    obtain ⟨k0, v0⟩ := p
    by_cases hk : k0 = k
    · subst hk
      simp only [popKey, if_pos, Option.some.injEq, Prod.mk.injEq] at h
      obtain ⟨-, hrest⟩ := h
      subst hrest
      simp [lkp, (Ne.symm hne : ¬ k0 = k')]
    · simp only [popKey, if_neg hk] at h
      cases hp : popKey tl k with
      | none => rw [hp] at h; simp at h
      | some pr =>
        obtain ⟨v', rest'⟩ := pr
        rw [hp] at h
        simp only [Option.some.injEq, Prod.mk.injEq] at h
        obtain ⟨hv, hrest⟩ := h
        subst hv
        subst hrest
        by_cases hk' : k0 = k'
        · simp [lkp, hk']
        · simp [lkp, hk', ih hp]

theorem keysOf_popKey {l rest : List (String × α)} {k : String} {v : α}
    (h : popKey l k = some (v, rest)) :
    keysOf rest = (keysOf l).erase k := by
  induction l generalizing rest with
  | nil => simp [popKey] at h
  | cons p tl ih =>
    obtain ⟨k0, v0⟩ := p
    by_cases hk : k0 = k
    · subst hk
      simp only [popKey, if_pos, Option.some.injEq, Prod.mk.injEq] at h
      obtain ⟨-, hrest⟩ := h
      subst hrest
      simp [keysOf]
    · simp only [popKey, if_neg hk] at h
      cases hp : popKey tl k with
      | none => rw [hp] at h; simp at h
      | some pr =>
        obtain ⟨v', rest'⟩ := pr
        rw [hp] at h
        simp only [Option.some.injEq, Prod.mk.injEq] at h
        obtain ⟨hv, hrest⟩ := h
        subst hv
        subst hrest
        have hne : (k0 == k) = false := by simp [hk]
        have h2 := ih hp
        simp only [keysOf, List.map_cons] at h2 ⊢
        rw [List.erase_cons, hne]
        simp [h2]

theorem lkp_odAssign (l : List (String × α)) (k : String) (v : α)
    (k' : String) :
    lkp (odAssign l k v) k' = if k = k' then some v else lkp l k' := by
  induction l with
  | nil => simp [odAssign, lkp]
  | cons p tl ih =>
    obtain ⟨k0, v0⟩ := p
    by_cases hk : k0 = k
    · subst hk
      simp only [odAssign, if_pos]
      by_cases hk' : k0 = k'
      · simp [lkp, hk']
      · simp [lkp, hk']
    · simp only [odAssign, if_neg hk]
      by_cases hk' : k0 = k'
      · have hne : ¬ k = k' := fun hh => hk (hk'.trans hh.symm)
        simp [lkp, hk', hne]
      · simp [lkp, hk', ih]

theorem keysOf_odAssign_of_hasKey {l : List (String × α)} {k : String}
    (v : α) (h : hasKey l k = true) :
    keysOf (odAssign l k v) = keysOf l := by
  induction l with
  | nil => simp [hasKey, lkp] at h
  | cons p tl ih =>
    obtain ⟨k0, v0⟩ := p
    by_cases hk : k0 = k
    · subst hk; simp [odAssign, keysOf]
    · have h' : hasKey tl k = true := by
        simpa [hasKey, lkp, hk] using h
      simp [odAssign, hk, keysOf] at ih ⊢
      exact ih h'

theorem odAssign_of_not_hasKey {l : List (String × α)} {k : String}
    (v : α) (h : hasKey l k = false) : odAssign l k v = l ++ [(k, v)] := by
  induction l with
  | nil => rfl
  | cons p tl ih =>
    obtain ⟨k0, v0⟩ := p
    by_cases hk : k0 = k
    · subst hk; simp [hasKey, lkp] at h
    · have h' : hasKey tl k = false := by simpa [hasKey, lkp, hk] using h
      simp [odAssign, hk, ih h']

theorem keysOf_append (l₁ l₂ : List (String × α)) :
    keysOf (l₁ ++ l₂) = keysOf l₁ ++ keysOf l₂ := by
  simp [keysOf]

theorem length_odAssign (l : List (String × α)) (k : String) (v : α) :
    (odAssign l k v).length =
      if hasKey l k = true then l.length else l.length + 1 := by
  by_cases h : hasKey l k = true
  · have h1 := keysOf_odAssign_of_hasKey v h
    have h2 : (keysOf (odAssign l k v)).length = (keysOf l).length := by
      rw [h1]
    simpa [keysOf, if_pos h] using h2
  · rw [if_neg h, odAssign_of_not_hasKey v (by simpa using h)]
    simp

theorem keysOf_odAssign_subset (l : List (String × α)) (k : String) (v : α) :
    keysOf (odAssign l k v) ⊆ k :: keysOf l := by
  by_cases h : hasKey l k = true
  · rw [keysOf_odAssign_of_hasKey v h]
    exact fun x hx => List.mem_cons_of_mem _ hx
  · rw [odAssign_of_not_hasKey v (by simpa using h), keysOf_append]
    intro x hx
    rcases List.mem_append.1 hx with hx | hx
    · exact List.mem_cons_of_mem _ hx
    · simp [keysOf] at hx
      simp [hx]

theorem nodup_keysOf_odAssign {l : List (String × α)} {k : String} {v : α}
    (h : (keysOf l).Nodup) : (keysOf (odAssign l k v)).Nodup := by
  by_cases hk : hasKey l k = true
  · rwa [keysOf_odAssign_of_hasKey v hk]
  · rw [odAssign_of_not_hasKey v (by simpa using hk), keysOf_append]
    have hnotin : k ∉ keysOf l := hasKey_eq_false_iff.1 (by simpa using hk)
    refine List.Nodup.append h (List.nodup_singleton k) ?_
    intro x hx hx'
    simp [keysOf] at hx'
    subst hx'
    exact hnotin hx

/-! ### Operation-level equations -/

theorem set_eq_present {c : LocalCache α} {k : String} {v0 : α}
    {rest : List (String × α)} (h : popKey c._cache k = some (v0, rest))
    (v : α) (now : Int) :
    c.set k v now =
      some { c with _cache := odAssign rest k v,
                    _timestamps := odAssign c._timestamps k now } := by
  have hk : hasKey c._cache k = true := by
    rw [← popKey_isSome, h]; rfl
  simp [LocalCache.set, hk, h]

theorem set_eq_fresh_full {c : LocalCache α} {k : String} {p : String × α}
    {rest : List (String × α)} (hk : hasKey c._cache k = false)
    (hc : c._cache = p :: rest) (hfull : c._cache.length ≥ c._max_size)
    (v : α) (now : Int) :
    c.set k v now =
      some { c with _cache := odAssign rest k v,
                    _timestamps := odAssign c._timestamps k now } := by
  have hk2 : hasKey (p :: rest) k = false := by rw [← hc]; exact hk
  have hfull2 : (p :: rest).length ≥ c._max_size := by rw [← hc]; exact hfull
  have hfull3 : c._max_size ≤ rest.length + 1 := by simpa using hfull2
  simp [LocalCache.set, hc, hk2, hfull3]

theorem set_eq_fresh_room {c : LocalCache α} {k : String}
    (hk : hasKey c._cache k = false) (hroom : c._cache.length < c._max_size)
    (v : α) (now : Int) :
    c.set k v now =
      some { c with _cache := odAssign c._cache k v,
                    _timestamps := odAssign c._timestamps k now } := by
  have h2 : ¬ c._cache.length ≥ c._max_size := not_le.2 hroom
  simp [LocalCache.set, hk, h2]

theorem get_eq_absent {c : LocalCache α} {k : String} (now : Int)
    (hk : hasKey c._cache k = false) :
    c.get k now = some (none, c) := by
  simp [LocalCache.get, hk]

theorem get_eq_live {c : LocalCache α} {k : String} {v : α}
    {rest : List (String × α)} {t now : Int}
    (hpop : popKey c._cache k = some (v, rest))
    (ht : lkp c._timestamps k = some t) (hlive : ¬ now - t > c._ttl) :
    c.get k now = some (some v, { c with _cache := odAssign rest k v }) := by
  have hk : hasKey c._cache k = true := by
    rw [← popKey_isSome, hpop]; rfl
  simp [LocalCache.get, hk, ht, hlive, hpop]

theorem get_eq_expired {c : LocalCache α} {k : String} {v : α}
    {rest : List (String × α)} {t : Int} {ts' : List (String × Int)}
    {now : Int} (hpop : popKey c._cache k = some (v, rest))
    (hts : popKey c._timestamps k = some (t, ts'))
    (hexp : now - t > c._ttl) :
    c.get k now =
      some (none, { c with _cache := rest, _timestamps := ts' }) := by
  have hk : hasKey c._cache k = true := by
    rw [← popKey_isSome, hpop]; rfl
  have ht : lkp c._timestamps k = some t := lkp_of_popKey hts
  simp [LocalCache.get, LocalCache.delete, hk, ht, hexp, hpop, hts]

theorem delete_eq_absent {c : LocalCache α} {k : String}
    (h : hasKey c._cache k = false) : c.delete k = some c := by
  simp [LocalCache.delete, popKey_eq_none_iff.2 h]

theorem delete_eq_present {c : LocalCache α} {k : String} {v : α}
    {rest : List (String × α)} {t : Int} {ts' : List (String × Int)}
    (h1 : popKey c._cache k = some (v, rest))
    (h2 : popKey c._timestamps k = some (t, ts')) :
    c.delete k = some { c with _cache := rest, _timestamps := ts' } := by
  simp [LocalCache.delete, h1, h2]

theorem set_isSome {c : LocalCache α} (k : String) (v : α) (now : Int)
    (h : 1 ≤ c._max_size) : (c.set k v now).isSome = true := by
  by_cases hk : hasKey c._cache k = true
  · have hs := popKey_isSome (l := c._cache) (k := k)
    rw [hk] at hs
    obtain ⟨⟨v0, rest⟩, hp⟩ := Option.isSome_iff_exists.1 hs
    rw [set_eq_present hp v now]; rfl
  · have hk' : hasKey c._cache k = false := by simpa using hk
    by_cases hfull : c._cache.length ≥ c._max_size
    · match hc : c._cache with
      | [] =>
        rw [hc] at hfull
        simp at hfull
        omega
      | p :: rest => rw [set_eq_fresh_full hk' hc hfull v now]; rfl
    · rw [set_eq_fresh_room hk' (not_le.1 hfull) v now]; rfl

theorem popKey_of_hasKey {l : List (String × α)} {k : String}
    (h : hasKey l k = true) : ∃ v rest, popKey l k = some (v, rest) := by
  have hs := popKey_isSome (l := l) (k := k)
  rw [h] at hs
  obtain ⟨⟨v, rest⟩, hp⟩ := Option.isSome_iff_exists.1 hs
  exact ⟨v, rest, hp⟩

theorem length_popKey {l rest : List (String × α)} {k : String} {v : α}
    (h : popKey l k = some (v, rest)) : rest.length + 1 = l.length := by
  induction l generalizing rest with
  | nil => simp [popKey] at h
  | cons p tl ih =>
    obtain ⟨k0, v0⟩ := p
    by_cases hk : k0 = k
    · subst hk
      simp only [popKey, if_pos, Option.some.injEq, Prod.mk.injEq] at h
      rw [← h.2]
      simp
    · simp only [popKey, if_neg hk] at h
      cases hp : popKey tl k with
      | none => rw [hp] at h; simp at h
      | some pr =>
        obtain ⟨v', rest'⟩ := pr
        rw [hp] at h
        simp only [Option.some.injEq, Prod.mk.injEq] at h
        obtain ⟨hv, hrest⟩ := h
        subst hv
        subst hrest
        simp [← ih hp]

theorem set_eq_none {c : LocalCache α} {k : String} (hc : c._cache = [])
    (hfull : c._cache.length ≥ c._max_size) (v : α) (now : Int) :
    c.set k v now = none := by
  have hms : c._max_size = 0 := by rw [hc] at hfull; simpa using hfull
  have hk : hasKey c._cache k = false := by simp [hc, hasKey, lkp]
  simp [LocalCache.set, hk, hc, hms, hasKey, lkp]

theorem get_isSome {c : LocalCache α} (k : String) (now : Int)
    (hwf : WF c) : (c.get k now).isSome = true := by
  by_cases hk : hasKey c._cache k = true
  · obtain ⟨v, rest, hp⟩ := popKey_of_hasKey hk
    have hts : (lkp c._timestamps k).isSome = true :=
      hwf k (hasKey_iff_mem.1 hk)
    obtain ⟨t, ht⟩ := Option.isSome_iff_exists.1 hts
    by_cases hexp : now - t > c._ttl
    · have hpk : (popKey c._timestamps k).isSome = true := by
        rw [popKey_isSome]; exact hts
      obtain ⟨⟨t', ts'⟩, hpts⟩ := Option.isSome_iff_exists.1 hpk
      have htt : t' = t := by
        have h2 := lkp_of_popKey hpts
        rw [ht] at h2
        exact (Option.some.inj h2).symm
      subst htt
      rw [get_eq_expired hp hpts hexp]; rfl
    · rw [get_eq_live hp ht hexp]; rfl
  · rw [get_eq_absent now (by simpa using hk)]; rfl

theorem delete_isSome {c : LocalCache α} (k : String) (hwf : WF c) :
    (c.delete k).isSome = true := by
  by_cases hk : hasKey c._cache k = true
  · obtain ⟨v, rest, hp⟩ := popKey_of_hasKey hk
    have hts : (lkp c._timestamps k).isSome = true :=
      hwf k (hasKey_iff_mem.1 hk)
    have hpk : (popKey c._timestamps k).isSome = true := by
      rw [popKey_isSome]; exact hts
    obtain ⟨⟨t, ts'⟩, hpts⟩ := Option.isSome_iff_exists.1 hpk
    rw [delete_eq_present hp hpts]; rfl
  · rw [delete_eq_absent (by simpa using hk)]; rfl

/-- Combined reachable-state invariant: fixed parameters, no duplicate keys
in either dictionary, the capacity bound, and well-formedness. -/
def CacheInv (ms : Nat) (ttl : Int) (c : LocalCache α) : Prop :=
  c._max_size = ms ∧ c._ttl = ttl ∧ (keysOf c._cache).Nodup ∧
    (keysOf c._timestamps).Nodup ∧ c._cache.length ≤ ms ∧ WF c

theorem hasKey_tail_false {k0 : String} {v0 : α} {tl : List (String × α)}
    {key : String} (h : hasKey ((k0, v0) :: tl) key = false) :
    hasKey tl key = false := by
  by_cases hk : k0 = key
  · subst hk; simp [hasKey, lkp] at h
  · simpa [hasKey, lkp, hk] using h

theorem setShape_inv {ms : Nat} {ttl : Int} {c : LocalCache α}
    {l : List (String × α)} {k : String} {v : α} {now : Int}
    (hI : CacheInv ms ttl c) (hsub : keysOf l ⊆ keysOf c._cache)
    (hnl : (keysOf l).Nodup) (hlen : (odAssign l k v).length ≤ ms) :
    CacheInv ms ttl
      { c with _cache := odAssign l k v,
               _timestamps := odAssign c._timestamps k now } := by
  obtain ⟨hms, httl, hnc, hnt, hlc, hwf⟩ := hI
  refine ⟨by simpa using hms, by simpa using httl, ?_, ?_, by simpa using hlen, ?_⟩
  · simpa using nodup_keysOf_odAssign hnl
  · simpa using nodup_keysOf_odAssign hnt
  · intro key' hmem
    simp only at hmem ⊢
    have hmem' := keysOf_odAssign_subset l k v hmem
    rw [lkp_odAssign]
    by_cases hk' : k = key'
    · simp [hk']
    · rw [if_neg hk']
      rcases List.mem_cons.1 hmem' with h1 | h1
      · exact absurd h1.symm hk'
      · exact hwf key' (hsub h1)

theorem set_inv {ms : Nat} {ttl : Int} {c c' : LocalCache α} {k : String}
    {v : α} {now : Int} (h : c.set k v now = some c')
    (hI : CacheInv ms ttl c) : CacheInv ms ttl c' := by
  have hms := hI.1
  have hnc := hI.2.2.1
  have hlc := hI.2.2.2.2.1
  by_cases hk : hasKey c._cache k = true
  · obtain ⟨v0, rest, hp⟩ := popKey_of_hasKey hk
    rw [set_eq_present hp v now] at h
    have hc' := (Option.some.inj h).symm
    subst hc'
    have hkr : keysOf rest = (keysOf c._cache).erase k := keysOf_popKey hp
    have hnr : (keysOf rest).Nodup := by rw [hkr]; exact hnc.erase k
    have hfr : hasKey rest k = false := by
      rw [hasKey_eq_false_iff, hkr]
      exact hnc.not_mem_erase
    refine setShape_inv hI ?_ hnr ?_
    · rw [hkr]; exact List.erase_subset k _
    · rw [length_odAssign, hfr]
      simp only [Bool.false_eq_true, if_false]
      have := length_popKey hp
      omega
  · have hk' : hasKey c._cache k = false := by simpa using hk
    by_cases hfull : c._cache.length ≥ c._max_size
    · match hc : c._cache with
      | [] =>
        rw [set_eq_none hc hfull v now] at h
        exact absurd h (by simp)
      | p :: rest =>
        rw [set_eq_fresh_full hk' hc hfull v now] at h
        have hc' := (Option.some.inj h).symm
        subst hc'
        have hkr : keysOf rest ⊆ keysOf c._cache := by
          rw [hc]
          exact fun x hx => List.mem_cons_of_mem _ hx
        have hnr : (keysOf rest).Nodup := by
          have := hnc
          rw [hc] at this
          obtain ⟨k0, w0⟩ := p
          simp [keysOf] at this
          simpa [keysOf] using this.2
        have hfr : hasKey rest k = false := by
          obtain ⟨k0, w0⟩ := p
          exact hasKey_tail_false (hc ▸ hk')
        refine setShape_inv hI hkr hnr ?_
        rw [length_odAssign, hfr]
        simp only [Bool.false_eq_true, if_false]
        have : rest.length + 1 = c._cache.length := by rw [hc]; simp
        omega
    · rw [set_eq_fresh_room hk' (not_le.1 hfull) v now] at h
      have hc' := (Option.some.inj h).symm
      subst hc'
      refine setShape_inv hI (fun x hx => hx) hnc ?_
      rw [length_odAssign, hk']
      simp only [Bool.false_eq_true, if_false]
      rw [hms] at hfull
      omega

theorem deleteShape_inv {ms : Nat} {ttl : Int} {c : LocalCache α}
    {k : String} {v : α} {rest : List (String × α)} {t : Int}
    {ts' : List (String × Int)} (hp : popKey c._cache k = some (v, rest))
    (hpts : popKey c._timestamps k = some (t, ts'))
    (hI : CacheInv ms ttl c) :
    CacheInv ms ttl { c with _cache := rest, _timestamps := ts' } := by
  obtain ⟨hms, httl, hnc, hnt, hlc, hwf⟩ := hI
  have hkr : keysOf rest = (keysOf c._cache).erase k := keysOf_popKey hp
  have hktr : keysOf ts' = (keysOf c._timestamps).erase k := keysOf_popKey hpts
  refine ⟨by simpa using hms, by simpa using httl, ?_, ?_, ?_, ?_⟩
  · simp only
    rw [hkr]
    exact hnc.erase k
  · simp only
    rw [hktr]
    exact hnt.erase k
  · simp only
    have := length_popKey hp
    omega
  · intro key' hmem
    simp only at hmem ⊢
    have hne : key' ≠ k := by
      intro he
      subst he
      rw [hkr] at hmem
      exact hnc.not_mem_erase hmem
    rw [lkp_popKey_ne hpts hne]
    refine hwf key' ?_
    rw [hkr] at hmem
    exact List.erase_subset k _ hmem

theorem delete_inv {ms : Nat} {ttl : Int} {c c' : LocalCache α} {k : String}
    (h : c.delete k = some c') (hI : CacheInv ms ttl c) :
    CacheInv ms ttl c' := by
  by_cases hk : hasKey c._cache k = true
  · obtain ⟨v, rest, hp⟩ := popKey_of_hasKey hk
    have hts := hI.2.2.2.2.2 k (hasKey_iff_mem.1 hk)
    obtain ⟨⟨t, ts'⟩, hpts⟩ :=
      Option.isSome_iff_exists.1 (by rw [popKey_isSome]; exact hts)
    rw [delete_eq_present hp hpts] at h
    have h2 := Option.some.inj h
    subst h2
    exact deleteShape_inv hp hpts hI
  · rw [delete_eq_absent (by simpa using hk)] at h
    have h2 := Option.some.inj h
    subst h2
    exact hI

theorem get_inv {ms : Nat} {ttl : Int} {c c' : LocalCache α} {k : String}
    {now : Int} {r : Option α} (h : c.get k now = some (r, c'))
    (hI : CacheInv ms ttl c) : CacheInv ms ttl c' := by
  by_cases hk : hasKey c._cache k = true
  · obtain ⟨v, rest, hp⟩ := popKey_of_hasKey hk
    have hts := hI.2.2.2.2.2 k (hasKey_iff_mem.1 hk)
    obtain ⟨t, ht⟩ := Option.isSome_iff_exists.1 hts
    by_cases hexp : now - t > c._ttl
    · obtain ⟨⟨t', ts'⟩, hpts⟩ :=
        Option.isSome_iff_exists.1 (by rw [popKey_isSome]; exact hts)
      have htt : t' = t := by
        have h2 := lkp_of_popKey hpts
        rw [ht] at h2
        exact (Option.some.inj h2).symm
      subst htt
      rw [get_eq_expired hp hpts hexp] at h
      have h2 : c' = { c with _cache := rest, _timestamps := ts' } :=
        (congrArg Prod.snd (Option.some.inj h)).symm
      rw [h2]
      exact deleteShape_inv hp hpts hI
    · rw [get_eq_live hp ht hexp] at h
      have h2 : c' = { c with _cache := odAssign rest k v } :=
        (congrArg Prod.snd (Option.some.inj h)).symm
      obtain ⟨hms, httl, hnc, hnt, hlc, hwf⟩ := hI
      have hkr : keysOf rest = (keysOf c._cache).erase k := keysOf_popKey hp
      have hnr : (keysOf rest).Nodup := by rw [hkr]; exact hnc.erase k
      have hfr : hasKey rest k = false := by
        rw [hasKey_eq_false_iff, hkr]
        exact hnc.not_mem_erase
      have hsub : keysOf rest ⊆ keysOf c._cache := by
        rw [hkr]; exact List.erase_subset k _
      rw [h2]
      refine ⟨by simpa using hms, by simpa using httl, ?_, by simpa using hnt,
        ?_, ?_⟩
      · simp only
        exact nodup_keysOf_odAssign hnr
      · simp only
        rw [length_odAssign, hfr]
        simp only [Bool.false_eq_true, if_false]
        have := length_popKey hp
        omega
      · intro key' hmem
        simp only at hmem ⊢
        have hmem' := keysOf_odAssign_subset rest k v hmem
        rcases List.mem_cons.1 hmem' with h1 | h1
        · subst h1
          exact hwf key' (hasKey_iff_mem.1 hk)
        · exact hwf key' (hsub h1)
  · rw [get_eq_absent now (by simpa using hk)] at h
    have h2 : c' = c := (congrArg Prod.snd (Option.some.inj h)).symm
    rw [h2]
    exact hI

theorem clear_inv {ms : Nat} {ttl : Int} {c : LocalCache α}
    (hI : CacheInv ms ttl c) : CacheInv ms ttl c.clear := by
  obtain ⟨hms, httl, -, -, -, -⟩ := hI
  refine ⟨by simpa [LocalCache.clear] using hms,
    by simpa [LocalCache.clear] using httl, ?_, ?_, ?_, ?_⟩
  · simp [LocalCache.clear, keysOf]
  · simp [LocalCache.clear, keysOf]
  · simp [LocalCache.clear]
  · intro k hk
    simp [LocalCache.clear, keysOf] at hk

theorem init_inv (ms : Nat) (ttl : Int) :
    CacheInv ms ttl (LocalCache.init ms ttl : LocalCache α) := by
  refine ⟨rfl, rfl, ?_, ?_, ?_, ?_⟩
  · simp [LocalCache.init, keysOf]
  · simp [LocalCache.init, keysOf]
  · simp [LocalCache.init]
  · intro k hk
    simp [LocalCache.init, keysOf] at hk

theorem reachable_inv {ms : Nat} {ttl : Int} {c : LocalCache α}
    (h : Reachable ms ttl c) : CacheInv ms ttl c := by
  induction h with
  | init => exact init_inv ms ttl
  | set hr hs ih => exact set_inv hs ih
  | get hr hg ih => exact get_inv hg ih
  | del hr hd ih => exact delete_inv hd ih
  | clr hr ih => exact clear_inv ih

/-! ### Shape lemmas for `set` and the wrapper -/

theorem popKey_append_fresh {l : List (String × α)} {k : String} (v : α)
    (h : hasKey l k = false) : popKey (l ++ [(k, v)]) k = some (v, l) := by
  induction l with
  | nil => simp [popKey]
  | cons p tl ih =>
    obtain ⟨k0, v0⟩ := p
    have hk : ¬ k0 = k := by
      intro he
      subst he
      simp [hasKey, lkp] at h
    simp [popKey, hk, ih (hasKey_tail_false h)]

theorem hasKey_append (l₁ l₂ : List (String × α)) (k : String) :
    hasKey (l₁ ++ l₂) k = (hasKey l₁ k || hasKey l₂ k) := by
  induction l₁ with
  | nil => simp [hasKey, lkp]
  | cons p tl ih =>
    obtain ⟨k0, v0⟩ := p
    by_cases hk : k0 = k
    · simp [hasKey, lkp, hk]
    · simp only [List.cons_append, hasKey, lkp, if_neg hk]
      exact ih

theorem popKey_odAssign_self (l : List (String × α)) (k : String) (v : α) :
    ∃ rest, popKey (odAssign l k v) k = some (v, rest) ∧
      keysOf rest = (keysOf (odAssign l k v)).erase k ∧
      (∀ k', k' ≠ k → lkp rest k' = lkp l k') := by
  have hk : hasKey (odAssign l k v) k = true := by
    rw [hasKey, lkp_odAssign]
    simp
  obtain ⟨v', rest, hp⟩ := popKey_of_hasKey hk
  have hv : v' = v := by
    have h2 := lkp_of_popKey hp
    rw [lkp_odAssign] at h2
    simpa using h2.symm
  subst hv
  refine ⟨rest, hp, keysOf_popKey hp, fun k' hne => ?_⟩
  rw [lkp_popKey_ne hp hne, lkp_odAssign, if_neg (fun he => hne he.symm)]

theorem set_shape {c c' : LocalCache α} {k : String} {v : α} {now : Int}
    (h : c.set k v now = some c') (hnc : (keysOf c._cache).Nodup) :
    ∃ l, hasKey l k = false ∧ c'._cache = l ++ [(k, v)] ∧
      c'._timestamps = odAssign c._timestamps k now ∧
      c'._max_size = c._max_size ∧ c'._ttl = c._ttl ∧
      keysOf l ⊆ keysOf c._cache := by
  by_cases hk : hasKey c._cache k = true
  · obtain ⟨v0, rest, hp⟩ := popKey_of_hasKey hk
    rw [set_eq_present hp v now] at h
    have h2 := (Option.some.inj h).symm
    subst h2
    have hkr : keysOf rest = (keysOf c._cache).erase k := keysOf_popKey hp
    have hfr : hasKey rest k = false := by
      rw [hasKey_eq_false_iff, hkr]
      exact hnc.not_mem_erase
    refine ⟨rest, hfr, ?_, rfl, rfl, rfl, ?_⟩
    · show odAssign rest k v = rest ++ [(k, v)]
      exact odAssign_of_not_hasKey v hfr
    · rw [hkr]
      exact List.erase_subset k _
  · have hk' : hasKey c._cache k = false := by simpa using hk
    by_cases hfull : c._cache.length ≥ c._max_size
    · match hc : c._cache with
      | [] =>
        rw [set_eq_none hc hfull v now] at h
        exact absurd h (by simp)
      | p :: rest =>
        rw [set_eq_fresh_full hk' hc hfull v now] at h
        have h2 := (Option.some.inj h).symm
        subst h2
        obtain ⟨k0, v0⟩ := p
        have hfr : hasKey rest k = false := hasKey_tail_false (hc ▸ hk')
        refine ⟨rest, hfr, ?_, rfl, rfl, rfl, ?_⟩
        · show odAssign rest k v = rest ++ [(k, v)]
          exact odAssign_of_not_hasKey v hfr
        · exact fun x hx => List.mem_cons_of_mem _ hx
    · rw [set_eq_fresh_room hk' (not_le.1 hfull) v now] at h
      have h2 := (Option.some.inj h).symm
      subst h2
      refine ⟨c._cache, hk', ?_, rfl, rfl, rfl, fun x hx => hx⟩
      show odAssign c._cache k v = c._cache ++ [(k, v)]
      exact odAssign_of_not_hasKey v hk'

theorem wrapper_hit {γ β : Type} {funcName : String}
    {cacheKeyFn : Option (γ → String)} {argsStr kwargsStr : γ → String}
    {f : γ → Option β} {c c1 : LocalCache (Option β)} {a : γ} {now : Int}
    {b : β}
    (hget : c.get (wKey funcName cacheKeyFn argsStr kwargsStr a) now =
      some (some (some b), c1)) :
    wrapper funcName cacheKeyFn argsStr kwargsStr f c a now =
      some ⟨some b, c1, false⟩ := by
  unfold wrapper
  simp only [hget]
  rfl

theorem wrapper_miss {γ β : Type} {funcName : String}
    {cacheKeyFn : Option (γ → String)} {argsStr kwargsStr : γ → String}
    {f : γ → Option β} {c c1 c2 : LocalCache (Option β)} {a : γ} {now : Int}
    {r : Option (Option β)} (hget :
      c.get (wKey funcName cacheKeyFn argsStr kwargsStr a) now =
        some (r, c1))
    (hr : r.join = none)
    (hset : c1.set (wKey funcName cacheKeyFn argsStr kwargsStr a) (f a) now =
      some c2) :
    wrapper funcName cacheKeyFn argsStr kwargsStr f c a now =
      some ⟨f a, c2, true⟩ := by
  unfold wrapper
  simp only [hget, hr, hset]

/-! ### Sequences of insertions -/

theorem setAll_fresh_room {now : Int} :
    ∀ (kvs : List (String × α)) (c : LocalCache α),
    (∀ p ∈ kvs, hasKey c._cache p.1 = false) →
    (keysOf kvs).Nodup →
    c._cache.length + kvs.length ≤ c._max_size →
    ∃ c', setAll c kvs now = some c' ∧
      c'._cache = c._cache ++ kvs ∧
      c'._max_size = c._max_size ∧ c'._ttl = c._ttl ∧
      (∀ p ∈ kvs, lkp c'._timestamps p.1 = some now) ∧
      (∀ key', key' ∉ keysOf kvs →
        lkp c'._timestamps key' = lkp c._timestamps key') := by
  intro kvs
  induction kvs with
  | nil =>
    intro c hfresh hnodup hroom
    exact ⟨c, rfl, by simp, rfl, rfl, by simp, fun key' h => rfl⟩
  | cons p rest ih =>
    intro c hfresh hnodup hroom
    obtain ⟨k, v⟩ := p
    have hkfresh : hasKey c._cache k = false := hfresh (k, v) (by simp)
    have hroom1 : c._cache.length < c._max_size := by
      simp only [List.length_cons] at hroom
      omega
    have hstep := set_eq_fresh_room hkfresh hroom1 v now
    set c1 : LocalCache α :=
      { c with _cache := odAssign c._cache k v,
               _timestamps := odAssign c._timestamps k now } with hc1
    have hcache1 : c1._cache = c._cache ++ [(k, v)] := by
      rw [hc1]
      show odAssign c._cache k v = c._cache ++ [(k, v)]
      exact odAssign_of_not_hasKey v hkfresh
    have hnodup' : (k :: keysOf rest).Nodup := by simpa [keysOf] using hnodup
    have hknotin : k ∉ keysOf rest := (List.nodup_cons.1 hnodup').1
    have hnodup1 : (keysOf rest).Nodup := (List.nodup_cons.1 hnodup').2
    have hfresh1 : ∀ q ∈ rest, hasKey c1._cache q.1 = false := by
      intro q hq
      rw [hcache1, hasKey_append]
      have h1 : hasKey c._cache q.1 = false := hfresh q (by simp [hq])
      have h2 : hasKey [(k, v)] q.1 = false := by
        have hmemq : q.1 ∈ keysOf rest := by
          show q.1 ∈ rest.map Prod.fst
          exact List.mem_map_of_mem Prod.fst hq
        have hne : q.1 ≠ k := fun he => hknotin (he ▸ hmemq)
        simp [hasKey, lkp, Ne.symm hne]
      rw [h1, h2]
      rfl
    have hroom2 : c1._cache.length + rest.length ≤ c1._max_size := by
      have hlen1 : c1._cache.length = c._cache.length + 1 := by
        rw [hcache1]
        simp
      have hms1 : c1._max_size = c._max_size := rfl
      rw [hlen1, hms1]
      simp only [List.length_cons] at hroom
      omega
    obtain ⟨c', hrun, hcache', hms', httl', hmem', hpres'⟩ :=
      ih c1 hfresh1 hnodup1 hroom2
    refine ⟨c', ?_, ?_, ?_, ?_, ?_, ?_⟩
    · show setAll c ((k, v) :: rest) now = some c'
      unfold setAll
      rw [hstep]
      exact hrun
    · rw [hcache', hcache1]
      simp
    · rw [hms']
    · rw [httl']
    · intro q hq
      rcases List.mem_cons.1 hq with h1 | h1
      · subst h1
        rw [hpres' k hknotin]
        show lkp (odAssign c._timestamps k now) k = some now
        rw [lkp_odAssign]
        simp
      · exact hmem' q h1
    · intro key' hnot
      have hne : key' ≠ k := by
        intro he
        exact hnot (by simp [keysOf, he])
      have hnot2 : key' ∉ keysOf rest := by
        intro hmem
        exact hnot (by simp [keysOf] at hmem ⊢; exact Or.inr hmem)
      rw [hpres' key' hnot2]
      show lkp (odAssign c._timestamps k now) key' = lkp c._timestamps key'
      rw [lkp_odAssign, if_neg (fun he => hne he.symm)]

theorem setAll_distinct_length {now : Int} :
    ∀ (kvs : List (String × α)) (c : LocalCache α),
    1 ≤ c._max_size →
    (∀ p ∈ kvs, hasKey c._cache p.1 = false) →
    (keysOf kvs).Nodup → (keysOf c._cache).Nodup →
    c._cache.length ≤ c._max_size →
    ∃ c', setAll c kvs now = some c' ∧
      c'._cache.length = min (c._cache.length + kvs.length) c._max_size ∧
      c'._max_size = c._max_size ∧
      keysOf c'._cache ⊆ keysOf c._cache ++ keysOf kvs ∧
      (keysOf c'._cache).Nodup := by
  intro kvs
  induction kvs with
  | nil =>
    intro c hms hfresh hnodup hnc hlen
    refine ⟨c, rfl, ?_, rfl, by simp [keysOf], hnc⟩
    simp
    omega
  | cons p rest ih =>
    intro c hms hfresh hnodup hnc hlen
    obtain ⟨k, v⟩ := p
    have hkfresh : hasKey c._cache k = false := hfresh (k, v) (by simp)
    have hknotc : k ∉ keysOf c._cache := hasKey_eq_false_iff.1 hkfresh
    have hnodup' : (k :: keysOf rest).Nodup := by simpa [keysOf] using hnodup
    have hknotin : k ∉ keysOf rest := (List.nodup_cons.1 hnodup').1
    have hnodup1 : (keysOf rest).Nodup := (List.nodup_cons.1 hnodup').2
    -- one `set` step, by cases on whether the cache is full
    have hstep : ∃ l, c.set k v now =
        some { c with _cache := odAssign l k v,
                      _timestamps := odAssign c._timestamps k now } ∧
        hasKey l k = false ∧ (keysOf l).Nodup ∧
        keysOf l ⊆ keysOf c._cache ∧
        (odAssign l k v).length = min (c._cache.length + 1) c._max_size := by
      by_cases hfull : c._cache.length ≥ c._max_size
      · match hc : c._cache with
        | [] =>
          rw [hc] at hfull
          simp at hfull
          omega
        | q :: tl =>
          refine ⟨tl, set_eq_fresh_full hkfresh hc hfull v now, ?_, ?_, ?_, ?_⟩
          · obtain ⟨k0, v0⟩ := q
            exact hasKey_tail_false (hc ▸ hkfresh)
          · have := hnc
            rw [hc] at this
            obtain ⟨k0, v0⟩ := q
            exact (List.nodup_cons.1 (by simpa [keysOf] using this)).2
          · exact fun x hx => List.mem_cons_of_mem _ hx
          · have hft : hasKey tl k = false := by
              obtain ⟨k0, v0⟩ := q
              exact hasKey_tail_false (hc ▸ hkfresh)
            rw [length_odAssign, hft]
            simp only [Bool.false_eq_true, if_false]
            have hcc := congrArg List.length hc
            simp only [List.length_cons] at hcc ⊢
            omega
      · refine ⟨c._cache, set_eq_fresh_room hkfresh (not_le.1 hfull) v now,
          hkfresh, hnc, fun x hx => hx, ?_⟩
        rw [length_odAssign, hkfresh]
        simp only [Bool.false_eq_true, if_false]
        omega
    obtain ⟨l, hset, hfl, hnl, hsubl, hlenl⟩ := hstep
    set c1 : LocalCache α :=
      { c with _cache := odAssign l k v,
               _timestamps := odAssign c._timestamps k now } with hc1
    have hcache1 : c1._cache = l ++ [(k, v)] := by
      rw [hc1]
      show odAssign l k v = l ++ [(k, v)]
      exact odAssign_of_not_hasKey v hfl
    have hkeys1 : keysOf c1._cache = keysOf l ++ [k] := by
      rw [hcache1, keysOf_append]
      rfl
    have hms1 : c1._max_size = c._max_size := rfl
    have hfresh1 : ∀ q ∈ rest, hasKey c1._cache q.1 = false := by
      intro q hq
      have hmemq : q.1 ∈ keysOf rest := by
        show q.1 ∈ rest.map Prod.fst
        exact List.mem_map_of_mem Prod.fst hq
      rw [hasKey_eq_false_iff, hkeys1]
      intro hmem
      rcases List.mem_append.1 hmem with h1 | h1
      · have : q.1 ∈ keysOf c._cache := hsubl h1
        have h0 : hasKey c._cache q.1 = false := hfresh q (by simp [hq])
        exact (hasKey_eq_false_iff.1 h0) this
      · have : q.1 = k := by simpa using h1
        exact hknotin (this ▸ hmemq)
    have hnc1 : (keysOf c1._cache).Nodup := by
      rw [hkeys1]
      refine List.Nodup.append hnl (List.nodup_singleton k) ?_
      intro x hx hx'
      have hxk : x = k := by simpa using hx'
      subst hxk
      exact (hasKey_eq_false_iff.1 hfl) hx
    have hlen1 : c1._cache.length = min (c._cache.length + 1) c._max_size := by
      rw [hc1]
      exact hlenl
    have hlen1' : c1._cache.length ≤ c1._max_size := by
      rw [hlen1, hms1]
      omega
    obtain ⟨c', hrun, hlen', hms', hsub', hnd'⟩ :=
      ih c1 (by rw [hms1]; exact hms) hfresh1 hnodup1 hnc1 hlen1'
    refine ⟨c', ?_, ?_, ?_, ?_, hnd'⟩
    · show setAll c ((k, v) :: rest) now = some c'
      unfold setAll
      rw [hset]
      exact hrun
    · rw [hlen', hlen1, hms1]
      simp only [List.length_cons]
      omega
    · rw [hms', hms1]
    · intro x hx
      have := hsub' hx
      rcases List.mem_append.1 this with h1 | h1
      · rw [hkeys1] at h1
        rcases List.mem_append.1 h1 with h2 | h2
        · exact List.mem_append.2 (Or.inl (hsubl h2))
        · have : x = k := by simpa using h2
          subst this
          refine List.mem_append.2 (Or.inr ?_)
          simp [keysOf]
      · refine List.mem_append.2 (Or.inr ?_)
        simp only [keysOf, List.map_cons]
        exact List.mem_cons_of_mem _ h1
/-! ### Claim theorems -/

/-- C2: after `set k v` at time `t0` on a cache whose dictionaries have no
duplicate keys, a `get k` at any `t` with `t - t0 ≤ ttl` returns the stored
value, and a `get k` at any `t` with `t - t0 > ttl` (strictly) returns
absent and removes both the entry and its timestamp metadata, so the key
occupies no capacity slot afterwards. -/
theorem C2_ttl_expiry {α : Type} {c c1 : LocalCache α} {k : String} {v : α}
    {t0 : Int} (hnc : (keysOf c._cache).Nodup)
    (hnt : (keysOf c._timestamps).Nodup)
    (hset : c.set k v t0 = some c1) (t : Int) :
    (t - t0 ≤ c._ttl → ∃ c2, c1.get k t = some (some v, c2)) ∧
    (t - t0 > c._ttl → ∃ c2, c1.get k t = some (none, c2) ∧
      hasKey c2._cache k = false ∧ lkp c2._timestamps k = none) := by
  obtain ⟨l, hfl, hcache, hts, hms, httl, hsub⟩ := set_shape hset hnc
  have hpopc : popKey c1._cache k = some (v, l) := by
    rw [hcache]
    exact popKey_append_fresh v hfl
  have hlkpts : lkp c1._timestamps k = some t0 := by
    rw [hts, lkp_odAssign]
    simp
  constructor
  · intro hlive
    refine ⟨_, get_eq_live hpopc hlkpts ?_⟩
    rw [httl]
    omega
  · intro hexp
    obtain ⟨ts', hpts, hkeysts, -⟩ := popKey_odAssign_self c._timestamps k t0
    have hpts1 : popKey c1._timestamps k = some (t0, ts') := by
      rw [hts]
      exact hpts
    refine ⟨_, get_eq_expired hpopc hpts1 (by rw [httl]; omega), ?_, ?_⟩
    · show hasKey l k = false
      exact hfl
    · show lkp ts' k = none
      rw [lkp_eq_none_iff, hkeysts]
      exact (nodup_keysOf_odAssign hnt).not_mem_erase

/-- C2 witness: a concrete instantiation of `C2_ttl_expiry`. -/
theorem C2_witness :
    ((50 : Int) - 0 ≤ (LocalCache.init 2 100 : LocalCache Nat)._ttl →
      ∃ c2, (LocalCache.mk [("a", 7)] [("a", 0)] 2 100).get "a" 50 =
        some (some 7, c2)) ∧
    ((50 : Int) - 0 > (LocalCache.init 2 100 : LocalCache Nat)._ttl →
      ∃ c2, (LocalCache.mk [("a", 7)] [("a", 0)] 2 100).get "a" 50 =
        some (none, c2) ∧ hasKey c2._cache "a" = false ∧
        lkp c2._timestamps "a" = none) :=
  @C2_ttl_expiry Nat (LocalCache.init 2 100)
    (LocalCache.mk [("a", 7)] [("a", 0)] 2 100) "a" 7 0
    (by decide) (by decide) (by decide) 50

/-- C4 counterexample: constructing with capacity `0 < 1` does not fail
fast; it produces a cache object on which `get` operates normally.  The
failure surfaces only later: `set` on the empty capacity-0 cache raises
`KeyError` (modelled as `none`). -/
theorem C4_counterexample :
    (LocalCache.init 0 60 : LocalCache Nat) =
      LocalCache.mk [] [] 0 60 ∧
    (LocalCache.init 0 60 : LocalCache Nat).get "k" 5 =
      some (none, LocalCache.init 0 60) ∧
    (LocalCache.init 0 60 : LocalCache Nat).set "k" 7 5 = none := by
  refine ⟨rfl, ?_, ?_⟩ <;> decide

/-- C4 (amended): construction performs no capacity validation — any
capacity, including `< 1`, yields a cache object.  With capacity `≥ 1`,
`set` never raises, and on well-formed states `get` and `delete` never
raise; `clear` is total by construction. -/
theorem C4_construction_and_totality {α : Type} (ms : Nat) (ttl : Int) :
    (LocalCache.init ms ttl : LocalCache α) = LocalCache.mk [] [] ms ttl ∧
    (∀ c : LocalCache α, 1 ≤ c._max_size →
      ∀ k v now, (c.set k v now).isSome = true) ∧
    (∀ c : LocalCache α, WF c → ∀ k now, (c.get k now).isSome = true) ∧
    (∀ c : LocalCache α, WF c → ∀ k, (c.delete k).isSome = true) :=
  ⟨rfl, fun _ hms k v now => set_isSome k v now hms,
    fun _ hwf k now => get_isSome k now hwf,
    fun _ hwf k => delete_isSome k hwf⟩

/-- C4 witness: a concrete instantiation of `C4_construction_and_totality`. -/
theorem C4_witness :
    ((LocalCache.mk [("a", 5)] [("a", 0)] 3 7 : LocalCache Nat).set
      "x" 1 0).isSome = true :=
  (C4_construction_and_totality 3 7).2.1
    (LocalCache.mk [("a", 5)] [("a", 0)] 3 7) (by decide) "x" 1 0

/-- C5: `set k v2` on a key already present (in a duplicate-free cache)
removes only `k`'s old slot and evicts no other key, even at capacity:
the key set is unchanged, all other values are untouched, `k` moves to the
fresh end, and a subsequent non-expired `get k` returns `v2`. -/
theorem C5_overwrite_preserves {α : Type} {c c' : LocalCache α} {k : String}
    {v2 : α} {now : Int} (hnc : (keysOf c._cache).Nodup)
    (hk : hasKey c._cache k = true) (hset : c.set k v2 now = some c') :
    (∀ k', k' ∈ keysOf c._cache ↔ k' ∈ keysOf c'._cache) ∧
    (∀ k', k' ≠ k → lkp c'._cache k' = lkp c._cache k') ∧
    keysOf c'._cache = (keysOf c._cache).erase k ++ [k] ∧
    (∀ t', ¬ t' - now > c._ttl →
      ∃ c'', c'.get k t' = some (some v2, c'')) := by
  obtain ⟨v0, rest, hp⟩ := popKey_of_hasKey hk
  rw [set_eq_present hp v2 now] at hset
  have hc' := (Option.some.inj hset).symm
  subst hc'
  have hkr : keysOf rest = (keysOf c._cache).erase k := keysOf_popKey hp
  have hfr : hasKey rest k = false := by
    rw [hasKey_eq_false_iff, hkr]
    exact hnc.not_mem_erase
  have hca : odAssign rest k v2 = rest ++ [(k, v2)] :=
    odAssign_of_not_hasKey v2 hfr
  have hkeys' : keysOf (odAssign rest k v2) =
      (keysOf c._cache).erase k ++ [k] := by
    rw [hca, keysOf_append, hkr]
    rfl
  refine ⟨?_, ?_, hkeys', ?_⟩
  · intro k'
    constructor
    · intro hmem
      show k' ∈ keysOf (odAssign rest k v2)
      rw [hkeys']
      by_cases he : k' = k
      · subst he
        simp
      · exact List.mem_append.2 (Or.inl ((List.mem_erase_of_ne he).2 hmem))
    · intro hmem
      have h1 : k' ∈ keysOf (odAssign rest k v2) := hmem
      rw [hkeys'] at h1
      rcases List.mem_append.1 h1 with h2 | h2
      · exact List.erase_subset k _ h2
      · have he : k' = k := by simpa using h2
        subst he
        exact hasKey_iff_mem.1 hk
  · intro k' hne
    show lkp (odAssign rest k v2) k' = lkp c._cache k'
    rw [lkp_odAssign, if_neg (fun he => hne he.symm)]
    exact lkp_popKey_ne hp hne
  · intro t' hlt
    have hpop2 : popKey (odAssign rest k v2) k = some (v2, rest) := by
      rw [hca]
      exact popKey_append_fresh v2 hfr
    have hts2 : lkp (odAssign c._timestamps k now) k = some now := by
      rw [lkp_odAssign]
      simp
    exact ⟨_, get_eq_live hpop2 hts2 hlt⟩

/-- C5 witness: a concrete instantiation of `C5_overwrite_preserves`. -/
theorem C5_witness :
    (∀ k', k' ∈ keysOf (LocalCache.mk [("a", 1), ("b", 2)]
        [("a", 0), ("b", 0)] 2 100 : LocalCache Nat)._cache ↔
      k' ∈ keysOf (LocalCache.mk [("b", 2), ("a", 9)]
        [("a", 3), ("b", 0)] 2 100 : LocalCache Nat)._cache) ∧
    (∀ k', k' ≠ "a" →
      lkp (LocalCache.mk [("b", 2), ("a", 9)]
        [("a", 3), ("b", 0)] 2 100 : LocalCache Nat)._cache k' =
      lkp (LocalCache.mk [("a", 1), ("b", 2)]
        [("a", 0), ("b", 0)] 2 100 : LocalCache Nat)._cache k') ∧
    keysOf (LocalCache.mk [("b", 2), ("a", 9)]
        [("a", 3), ("b", 0)] 2 100 : LocalCache Nat)._cache =
      (keysOf (LocalCache.mk [("a", 1), ("b", 2)]
        [("a", 0), ("b", 0)] 2 100 : LocalCache Nat)._cache).erase "a"
        ++ ["a"] ∧
    (∀ t', ¬ t' - 3 > (LocalCache.mk [("a", 1), ("b", 2)]
        [("a", 0), ("b", 0)] 2 100 : LocalCache Nat)._ttl →
      ∃ c'', (LocalCache.mk [("b", 2), ("a", 9)]
        [("a", 3), ("b", 0)] 2 100 : LocalCache Nat).get "a" t' =
        some (some 9, c'')) :=
  @C5_overwrite_preserves Nat
    (LocalCache.mk [("a", 1), ("b", 2)] [("a", 0), ("b", 0)] 2 100)
    (LocalCache.mk [("b", 2), ("a", 9)] [("a", 3), ("b", 0)] 2 100)
    "a" 9 3 (by decide) (by decide) (by decide)

/-- C8: a `get` on a present, non-expired key (in a duplicate-free cache)
changes only that key's recency position: the key set, every stored value,
and every timestamp — including that of the key read — are unchanged, as
are the capacity and ttl. -/
theorem C8_get_frame {α : Type} {c : LocalCache α} {k : String} {v : α}
    {t0 now : Int} (hnc : (keysOf c._cache).Nodup)
    (hv : lkp c._cache k = some v) (ht : lkp c._timestamps k = some t0)
    (hlive : ¬ now - t0 > c._ttl) :
    ∃ c', c.get k now = some (some v, c') ∧
      c'._timestamps = c._timestamps ∧
      (∀ k', lkp c'._cache k' = lkp c._cache k') ∧
      (∀ k', k' ∈ keysOf c'._cache ↔ k' ∈ keysOf c._cache) ∧
      keysOf c'._cache = (keysOf c._cache).erase k ++ [k] ∧
      c'._max_size = c._max_size ∧ c'._ttl = c._ttl := by
  have hk : hasKey c._cache k = true := by
    rw [hasKey, hv]
    rfl
  obtain ⟨v', rest, hp⟩ := popKey_of_hasKey hk
  have hveq : v' = v := by
    have h2 := lkp_of_popKey hp
    rw [hv] at h2
    exact (Option.some.inj h2).symm
  rw [hveq] at hp
  have hkr : keysOf rest = (keysOf c._cache).erase k := keysOf_popKey hp
  have hfr : hasKey rest k = false := by
    rw [hasKey_eq_false_iff, hkr]
    exact hnc.not_mem_erase
  have hca : odAssign rest k v = rest ++ [(k, v)] :=
    odAssign_of_not_hasKey v hfr
  have hkeys' : keysOf (odAssign rest k v) =
      (keysOf c._cache).erase k ++ [k] := by
    rw [hca, keysOf_append, hkr]
    rfl
  refine ⟨_, get_eq_live hp ht hlive, rfl, ?_, ?_, hkeys', rfl, rfl⟩
  · intro k'
    by_cases he : k' = k
    · subst he
      show lkp (odAssign rest k' v) k' = _
      rw [lkp_odAssign, if_pos rfl, hv]
    · show lkp (odAssign rest k v) k' = _
      rw [lkp_odAssign, if_neg (fun hh => he hh.symm)]
      exact lkp_popKey_ne hp he
  · intro k'
    show k' ∈ keysOf (odAssign rest k v) ↔ _
    rw [hkeys']
    constructor
    · intro hmem
      rcases List.mem_append.1 hmem with h1 | h1
      · exact List.erase_subset k _ h1
      · have he : k' = k := by simpa using h1
        subst he
        exact hasKey_iff_mem.1 hk
    · intro hmem
      by_cases he : k' = k
      · subst he
        simp
      · exact List.mem_append.2 (Or.inl ((List.mem_erase_of_ne he).2 hmem))

/-- C8 witness: a concrete instantiation of `C8_get_frame`. -/
theorem C8_witness :
    ∃ c', (LocalCache.mk [("a", 1), ("b", 2)] [("a", 0), ("b", 4)] 2 100 :
        LocalCache Nat).get "a" 50 = some (some 1, c') ∧
      c'._timestamps = [("a", 0), ("b", 4)] ∧
      (∀ k', lkp c'._cache k' =
        lkp [("a", (1 : Nat)), ("b", 2)] k') ∧
      (∀ k', k' ∈ keysOf c'._cache ↔
        k' ∈ keysOf [("a", (1 : Nat)), ("b", 2)]) ∧
      keysOf c'._cache =
        (keysOf [("a", (1 : Nat)), ("b", 2)]).erase "a" ++ ["a"] ∧
      c'._max_size = 2 ∧ c'._ttl = 100 :=
  @C8_get_frame Nat
    (LocalCache.mk [("a", 1), ("b", 2)] [("a", 0), ("b", 4)] 2 100)
    "a" 1 0 50 (by decide) (by decide) (by decide) (by decide)

theorem keysOf_map_pair (ks : List String) (valf : String → α) :
    keysOf (ks.map (fun k => (k, valf k))) = ks := by
  induction ks with
  | nil => rfl
  | cons k tl ih =>
    simp only [List.map_cons, keysOf] at ih ⊢
    rw [ih]

/-- C6: for a cache of capacity `ms ≥ 1` and any sequence of `set` calls
with pairwise distinct keys, after any prefix of `i` calls the number of
live entries is exactly `min i ms`; and no reachable state of any cache
ever holds more than `capacity` entries. -/
theorem C6_capacity_bound {α : Type} :
    (∀ (ms : Nat) (ttl : Int) (ks : List String) (valf : String → α)
      (t0 : Int), 1 ≤ ms → ks.Nodup →
      ∀ i, i ≤ ks.length →
        ∃ c', setAll (LocalCache.init ms ttl)
            ((ks.take i).map (fun k => (k, valf k))) t0 = some c' ∧
          c'._cache.length = min i ms) ∧
    (∀ (ms : Nat) (ttl : Int) (c : LocalCache α),
      Reachable ms ttl c → c._cache.length ≤ ms) := by
  constructor
  · intro ms ttl ks valf t0 hms hnodup i hi
    have hkeys : keysOf ((ks.take i).map (fun k => (k, valf k))) =
        ks.take i := keysOf_map_pair (ks.take i) valf
    have hnd : (ks.take i).Nodup :=
      hnodup.sublist (List.take_sublist i ks)
    obtain ⟨c', hrun, hlen, -, -, -⟩ :=
      setAll_distinct_length ((ks.take i).map (fun k => (k, valf k)))
        (LocalCache.init ms ttl) hms (fun p _ => rfl)
        (by rw [hkeys]; exact hnd) (by simp [LocalCache.init, keysOf])
        (by simp [LocalCache.init])
    refine ⟨c', hrun, ?_⟩
    rw [hlen]
    have hlt : ((ks.take i).map (fun k => (k, valf k))).length = i := by
      rw [List.length_map, List.length_take]
      omega
    rw [hlt]
    simp [LocalCache.init]
  · intro ms ttl c hreach
    exact (reachable_inv hreach).2.2.2.2.1

/-- C6 witness: a concrete instantiation of `C6_capacity_bound`. -/
theorem C6_witness :
    ∃ c', setAll (LocalCache.init 2 100)
        ((["a", "b", "c"].take 3).map (fun k => (k, (0 : Nat)))) 5 =
        some c' ∧
      c'._cache.length = min 3 2 :=
  C6_capacity_bound.1 2 100 ["a", "b", "c"] (fun _ => 0) 5 (by decide)
    (by decide) 3 (by decide)

/-- C1: with capacity `N = rest.length + 2 ≥ 2`, inserting the distinct
keys `k1, k2, rest...` (filling the cache), then `get k1` (within ttl),
then `set` of a fresh key evicts exactly `k2` — the least recently touched
key — and not `k1`; after every operation the recency order (head =
stalest) is the chronological order of the `get`/`set` calls; and in
general a `set` of a fresh key on a full cache evicts exactly the entry at
the stale end. -/
theorem C1_lru_eviction {α : Type} (k1 k2 : String) (v1 v2 : α)
    (rest : List (String × α)) (kNew : String) (vNew : α)
    (ttl t0 t1 t2 : Int)
    (hnodup : (keysOf ((k1, v1) :: (k2, v2) :: rest)).Nodup)
    (hkNew : kNew ∉ keysOf ((k1, v1) :: (k2, v2) :: rest))
    (hlive : t1 - t0 ≤ ttl) :
    (∃ c1 c2 c3,
      setAll (LocalCache.init (rest.length + 2) ttl)
        ((k1, v1) :: (k2, v2) :: rest) t0 = some c1 ∧
      keysOf c1._cache = k1 :: k2 :: keysOf rest ∧
      c1.get k1 t1 = some (some v1, c2) ∧
      keysOf c2._cache = (k2 :: keysOf rest) ++ [k1] ∧
      c2.set kNew vNew t2 = some c3 ∧
      keysOf c3._cache = (keysOf rest ++ [k1]) ++ [kNew] ∧
      k2 ∉ keysOf c3._cache ∧ k1 ∈ keysOf c3._cache) ∧
    (∀ (c : LocalCache α) (k : String) (v : α) (now : Int)
      (p : String × α) (tl : List (String × α)),
      c._cache = p :: tl → hasKey c._cache k = false →
      c._cache.length ≥ c._max_size →
      ∃ c', c.set k v now = some c' ∧
        keysOf c'._cache = keysOf tl ++ [k]) := by
  constructor
  · have hnodupk : (k1 :: k2 :: keysOf rest).Nodup := hnodup
    have hkNewk : kNew ∉ k1 :: k2 :: keysOf rest := hkNew
    obtain ⟨hk1, hnd1⟩ := List.nodup_cons.1 hnodupk
    obtain ⟨hk2, hnd2⟩ := List.nodup_cons.1 hnd1
    obtain ⟨c1, hrun, hcache1, hms1, httl1, hmem1, -⟩ :=
      @setAll_fresh_room α t0 ((k1, v1) :: (k2, v2) :: rest)
        (LocalCache.init (rest.length + 2) ttl)
        (fun p _ => rfl) hnodup (by simp [LocalCache.init])
    have hc1 : c1._cache = (k1, v1) :: (k2, v2) :: rest := by
      rw [hcache1]
      rfl
    have hpop1 : popKey c1._cache k1 = some (v1, (k2, v2) :: rest) := by
      rw [hc1]
      simp [popKey]
    have ht1 : lkp c1._timestamps k1 = some t0 := hmem1 (k1, v1) (by simp)
    have httl1' : c1._ttl = ttl := httl1
    have hlive1 : ¬ t1 - t0 > c1._ttl := by
      rw [httl1']
      omega
    have hget := get_eq_live hpop1 ht1 hlive1
    set c2 : LocalCache α :=
      { c1 with _cache := odAssign ((k2, v2) :: rest) k1 v1 } with hc2def
    have hk1tail : hasKey ((k2, v2) :: rest) k1 = false := by
      rw [hasKey_eq_false_iff]
      exact hk1
    have hc2cache : c2._cache = ((k2, v2) :: rest) ++ [(k1, v1)] := by
      rw [hc2def]
      show odAssign ((k2, v2) :: rest) k1 v1 = _
      exact odAssign_of_not_hasKey v1 hk1tail
    have hkeys2 : keysOf c2._cache = (k2 :: keysOf rest) ++ [k1] := by
      rw [hc2cache, keysOf_append]
      rfl
    have hc2cons : c2._cache = (k2, v2) :: (rest ++ [(k1, v1)]) := by
      rw [hc2cache]
      rfl
    have hms2 : c2._max_size = rest.length + 2 := hms1
    have hfreshNew : hasKey c2._cache kNew = false := by
      rw [hasKey_eq_false_iff, hkeys2]
      intro hmem
      rcases List.mem_append.1 hmem with h1 | h1
      · rcases List.mem_cons.1 h1 with h2 | h2
        · exact hkNewk (by simp [h2])
        · exact hkNewk (by simp [h2])
      · have he : kNew = k1 := by simpa using h1
        exact hkNewk (by simp [he])
    have hfull2 : c2._cache.length ≥ c2._max_size := by
      rw [hc2cache, hms2]
      simp
    have hset2 := set_eq_fresh_full hfreshNew hc2cons hfull2 vNew t2
    set c3 : LocalCache α :=
      { c2 with _cache := odAssign (rest ++ [(k1, v1)]) kNew vNew,
                _timestamps := odAssign c2._timestamps kNew t2 } with hc3def
    have hkNewTail : hasKey (rest ++ [(k1, v1)]) kNew = false := by
      rw [hasKey_eq_false_iff, keysOf_append]
      intro hmem
      rcases List.mem_append.1 hmem with h1 | h1
      · exact hkNewk (by simp [h1])
      · have he : kNew = k1 := by simpa [keysOf] using h1
        exact hkNewk (by simp [he])
    have hc3cache : c3._cache = (rest ++ [(k1, v1)]) ++ [(kNew, vNew)] := by
      rw [hc3def]
      show odAssign (rest ++ [(k1, v1)]) kNew vNew = _
      exact odAssign_of_not_hasKey vNew hkNewTail
    have hkeys3 : keysOf c3._cache = (keysOf rest ++ [k1]) ++ [kNew] := by
      rw [hc3cache, keysOf_append, keysOf_append]
      rfl
    refine ⟨c1, c2, c3, hrun, ?_, hget, hkeys2, hset2, hkeys3, ?_, ?_⟩
    · rw [hc1]
      rfl
    · rw [hkeys3]
      intro hmem
      rcases List.mem_append.1 hmem with h1 | h1
      · rcases List.mem_append.1 h1 with h2 | h2
        · exact hk2 h2
        · have he : k2 = k1 := by simpa using h2
          apply hk1
          rw [← he]
          exact List.mem_cons_self _ _
      · have he : k2 = kNew := by simpa using h1
        apply hkNewk
        rw [← he]
        exact List.mem_cons_of_mem _ (List.mem_cons_self _ _)
    · rw [hkeys3]
      simp
  · intro c k v now p tl hc hk hfull
    have htl : hasKey tl k = false := by
      obtain ⟨k0, v0⟩ := p
      exact hasKey_tail_false (hc ▸ hk)
    refine ⟨_, set_eq_fresh_full hk hc hfull v now, ?_⟩
    show keysOf (odAssign tl k v) = keysOf tl ++ [k]
    rw [odAssign_of_not_hasKey v htl, keysOf_append]
    rfl

/-- C1 witness: a concrete instantiation of `C1_lru_eviction` with
capacity 2, keys `a`, `b`, then `get a`, then `set c` which evicts `b`. -/
theorem C1_witness :
    ∃ c1 c2 c3,
      setAll (LocalCache.init 2 100)
        ([("a", 1), ("b", 2)] : List (String × Nat)) 0 = some c1 ∧
      keysOf c1._cache = "a" :: "b" :: keysOf ([] : List (String × Nat)) ∧
      c1.get "a" 1 = some (some 1, c2) ∧
      keysOf c2._cache =
        ("b" :: keysOf ([] : List (String × Nat))) ++ ["a"] ∧
      c2.set "c" 3 2 = some c3 ∧
      keysOf c3._cache =
        (keysOf ([] : List (String × Nat)) ++ ["a"]) ++ ["c"] ∧
      "b" ∉ keysOf c3._cache ∧ "a" ∈ keysOf c3._cache :=
  (C1_lru_eviction "a" "b" 1 2 [] "c" 3 100 0 1 2 (by decide) (by decide)
    (by decide)).1

/-- C9: in every reachable state every cached key has a timestamp, so
`get`'s expiry check is defined and `get` never raises; the converse
fails: when `set` evicts the LRU entry, the evicted key's timestamp is
left behind, unchanged, in the timestamp dictionary; and the leftover
never changes any later `get` or `set` result — `get` on a key absent
from the store ignores timestamps entirely, and `set` never reads the
timestamp dictionary, only overwrites its own key's entry. -/
theorem C9_timestamp_leftover {α : Type} :
    (∀ (ms : Nat) (ttl : Int) (c : LocalCache α), Reachable ms ttl c →
      (∀ k ∈ keysOf c._cache, (lkp c._timestamps k).isSome = true) ∧
      (∀ k now, (c.get k now).isSome = true)) ∧
    (∀ (c : LocalCache α) (k : String) (v : α) (now : Int) (k0 : String)
      (v0 : α) (tl : List (String × α)),
      (keysOf c._cache).Nodup → c._cache = (k0, v0) :: tl →
      hasKey c._cache k = false → c._cache.length ≥ c._max_size →
      ∃ c', c.set k v now = some c' ∧ hasKey c'._cache k0 = false ∧
        lkp c'._timestamps k0 = lkp c._timestamps k0) ∧
    (∀ (c : LocalCache α) (k : String) (now : Int),
      hasKey c._cache k = false → c.get k now = some (none, c)) ∧
    (∀ (c : LocalCache α) (u : List (String × Int)) (k : String) (v : α)
      (now : Int),
      (LocalCache.mk c._cache u c._max_size c._ttl).set k v now =
        (c.set k v now).map (fun d =>
          LocalCache.mk d._cache (odAssign u k now) d._max_size d._ttl)) := by
  refine ⟨?_, ?_, ?_, ?_⟩
  · intro ms ttl c hreach
    have hI := reachable_inv hreach
    exact ⟨hI.2.2.2.2.2, fun k now => get_isSome k now hI.2.2.2.2.2⟩
  · intro c k v now k0 v0 tl hnc hc hk hfull
    have hk0k : k0 ≠ k := by
      intro he
      rw [hasKey_eq_false_iff, hc] at hk
      exact hk (by simp [he, keysOf])
    have htlk : hasKey tl k = false := hasKey_tail_false (hc ▸ hk)
    have hk0tl : k0 ∉ keysOf tl := by
      have := hnc
      rw [hc] at this
      exact (List.nodup_cons.1 (by simpa [keysOf] using this)).1
    refine ⟨_, set_eq_fresh_full hk hc hfull v now, ?_, ?_⟩
    · show hasKey (odAssign tl k v) k0 = false
      rw [hasKey_eq_false_iff, odAssign_of_not_hasKey v htlk, keysOf_append]
      intro hmem
      rcases List.mem_append.1 hmem with h1 | h1
      · exact hk0tl h1
      · exact hk0k (by simpa [keysOf] using h1)
    · show lkp (odAssign c._timestamps k now) k0 = lkp c._timestamps k0
      rw [lkp_odAssign, if_neg (fun he => hk0k he.symm)]
  · intro c k now hk
    exact get_eq_absent now hk
  · intro c u k v now
    by_cases hk : hasKey c._cache k = true
    · obtain ⟨v0, rest, hp⟩ := popKey_of_hasKey hk
      rw [set_eq_present hp v now]
      rw [set_eq_present (c := LocalCache.mk c._cache u c._max_size c._ttl)
        hp v now]
      rfl
    · have hk' : hasKey c._cache k = false := by simpa using hk
      by_cases hfull : c._cache.length ≥ c._max_size
      · match hc : c._cache with
        | [] =>
          have hfull2 : ([] : List (String × α)).length ≥ c._max_size :=
            hc ▸ hfull
          rw [set_eq_none hc hfull v now]
          rw [set_eq_none
            (c := LocalCache.mk [] u c._max_size c._ttl) rfl hfull2 v now]
          rfl
        | p :: tl =>
          have htlk : hasKey (p :: tl) k = false := hc ▸ hk'
          have hfull2 : (p :: tl).length ≥ c._max_size := hc ▸ hfull
          rw [set_eq_fresh_full hk' hc hfull v now]
          rw [set_eq_fresh_full
            (c := LocalCache.mk (p :: tl) u c._max_size c._ttl)
            htlk rfl hfull2 v now]
          rfl
      · rw [set_eq_fresh_room hk' (not_le.1 hfull) v now]
        rw [set_eq_fresh_room
          (c := LocalCache.mk c._cache u c._max_size c._ttl)
          hk' (not_le.1 hfull) v now]
        rfl

/-- C9 witness: a concrete instantiation of `C9_timestamp_leftover`: a
`get` on a key that only has a leftover timestamp is a plain miss. -/
theorem C9_witness :
    (LocalCache.mk [("a", 1)] [("a", 0), ("b", 0)] 1 100 :
        LocalCache Nat).get "b" 5 =
      some (none, LocalCache.mk [("a", 1)] [("a", 0), ("b", 0)] 1 100) :=
  C9_timestamp_leftover.2.2.1
    (LocalCache.mk [("a", 1)] [("a", 0), ("b", 0)] 1 100) "b" 5 (by decide)

/-- C3 counterexample: for an underlying function returning Python `None`,
two identical calls within ttl invoke it twice — the claim's "exactly
once" fails for such functions. -/
theorem C3_counterexample :
    wrapper "f" none (fun _ => "(1,)") (fun _ => "{}")
      (fun _ : Nat => (none : Option Nat)) (cachedInit 100) 1 0 =
      some ⟨none, LocalCache.mk [("f:(1,):{}", none)] [("f:(1,):{}", 0)]
        1000 100, true⟩ ∧
    wrapper "f" none (fun _ => "(1,)") (fun _ => "{}")
      (fun _ : Nat => (none : Option Nat))
      (LocalCache.mk [("f:(1,):{}", none)] [("f:(1,):{}", 0)] 1000 100)
      1 1 =
      some ⟨none, LocalCache.mk [("f:(1,):{}", none)] [("f:(1,):{}", 1)]
        1000 100, true⟩ := by
  constructor <;> rfl

/-- C3 (amended): for an underlying function whose result at the given
arguments is not `None`, two calls with identical arguments within ttl
invoke the function exactly once — the first call invokes it and the
second is served from the cache — and a call whose derived cache key
differs invokes the function again. -/
theorem C3_memoization {γ β : Type} (funcName : String)
    (cacheKeyFn : Option (γ → String)) (argsStr kwargsStr : γ → String)
    (f : γ → Option β) (a a' : γ) (b : β) (ttl t1 t2 t3 : Int)
    (hfa : f a = some b) (hlive : t2 - t1 ≤ ttl)
    (hkey : wKey funcName cacheKeyFn argsStr kwargsStr a' ≠
      wKey funcName cacheKeyFn argsStr kwargsStr a) :
    ∃ r1 r2 r3 : CallResult β γ,
      wrapper funcName cacheKeyFn argsStr kwargsStr f (cachedInit ttl) a
        t1 = some r1 ∧ r1.invoked = true ∧ r1.result = some b ∧
      wrapper funcName cacheKeyFn argsStr kwargsStr f r1.cache a t2 =
        some r2 ∧ r2.invoked = false ∧ r2.result = some b ∧
      wrapper funcName cacheKeyFn argsStr kwargsStr f r2.cache a' t3 =
        some r3 ∧ r3.invoked = true := by
  set key := wKey funcName cacheKeyFn argsStr kwargsStr a with hkeydef
  set key' := wKey funcName cacheKeyFn argsStr kwargsStr a' with hkeydef'
  have hget0 : (cachedInit ttl : LocalCache (Option β)).get key t1 =
      some (none, cachedInit ttl) := get_eq_absent t1 rfl
  set c1 : LocalCache (Option β) :=
    LocalCache.mk [(key, f a)] [(key, t1)] 1000 ttl with hc1def
  have hset0 : (cachedInit ttl : LocalCache (Option β)).set key (f a) t1 =
      some c1 :=
    set_eq_fresh_room
      (show hasKey (cachedInit ttl : LocalCache (Option β))._cache key =
        false from rfl)
      (by show (0 : Nat) < 1000; decide) (f a) t1
  have hw1 : wrapper funcName cacheKeyFn argsStr kwargsStr f
      (cachedInit ttl) a t1 = some ⟨f a, c1, true⟩ :=
    wrapper_miss hget0 rfl hset0
  have hp1 : popKey c1._cache key = some (f a, []) := by
    show popKey [(key, f a)] key = some (f a, [])
    simp [popKey]
  have ht1 : lkp c1._timestamps key = some t1 := by
    show lkp [(key, t1)] key = some t1
    simp [lkp]
  have hlive1 : ¬ t2 - t1 > c1._ttl := by
    show ¬ t2 - t1 > ttl
    omega
  have hget1 : c1.get key t2 = some (some (f a), c1) :=
    get_eq_live hp1 ht1 hlive1
  rw [hfa] at hget1
  have hw2 : wrapper funcName cacheKeyFn argsStr kwargsStr f c1 a t2 =
      some ⟨some b, c1, false⟩ := wrapper_hit hget1
  have hK : hasKey c1._cache key' = false := by
    show hasKey [(key, f a)] key' = false
    simp [hasKey, lkp, Ne.symm hkey]
  have hget2 : c1.get key' t3 = some (none, c1) := get_eq_absent t3 hK
  have hset2 := set_eq_fresh_room hK (by show (1 : Nat) < 1000; decide)
    (f a') t3
  have hw3 : wrapper funcName cacheKeyFn argsStr kwargsStr f c1 a' t3 =
      some ⟨f a', { c1 with
        _cache := odAssign c1._cache key' (f a'),
        _timestamps := odAssign c1._timestamps key' t3 }, true⟩ :=
    wrapper_miss hget2 rfl hset2
  exact ⟨_, _, _, hw1, rfl, hfa, hw2, rfl, rfl, hw3, rfl⟩

/-- C3 witness: a concrete instantiation of `C3_memoization`. -/
theorem C3_witness :
    ∃ r1 r2 r3 : CallResult Nat Nat,
      wrapper "f" none (fun n => toString n) (fun _ => "{}")
        (fun n => some (n + 10)) (cachedInit 100) 1 0 = some r1 ∧
      r1.invoked = true ∧ r1.result = some 11 ∧
      wrapper "f" none (fun n => toString n) (fun _ => "{}")
        (fun n => some (n + 10)) r1.cache 1 1 = some r2 ∧
      r2.invoked = false ∧ r2.result = some 11 ∧
      wrapper "f" none (fun n => toString n) (fun _ => "{}")
        (fun n => some (n + 10)) r2.cache 2 2 = some r3 ∧
      r3.invoked = true :=
  C3_memoization "f" none (fun n => toString n) (fun _ => "{}")
    (fun n => some (n + 10)) 1 2 11 100 0 1 2 (by decide) (by decide)
    (by decide)

/-- C7: with no caller-supplied key function the wrapper derives the key
exactly as `funcName ++ ":" ++ str(args) ++ ":" ++ str(kwargs)`; and an
external `set` of that derived key on the wrapper's cache, followed by a
call through the wrapper with matching arguments within ttl, returns the
externally stored value without invoking the underlying function. -/
theorem C7_default_key_roundtrip {γ β : Type} (funcName : String)
    (argsStr kwargsStr : γ → String) (f : γ → Option β) (a : γ) (b : β)
    {c c1 : LocalCache (Option β)} {t t' : Int}
    (hnc : (keysOf c._cache).Nodup)
    (hset : c.set (funcName ++ ":" ++ argsStr a ++ ":" ++ kwargsStr a)
      (some b) t = some c1)
    (hlive : t' - t ≤ c._ttl) :
    wKey funcName none argsStr kwargsStr a =
      funcName ++ ":" ++ argsStr a ++ ":" ++ kwargsStr a ∧
    ∃ c2, wrapper funcName none argsStr kwargsStr f c1 a t' =
      some ⟨some b, c2, false⟩ := by
  refine ⟨rfl, ?_⟩
  obtain ⟨l, hfl, hcache, hts, hms, httl, -⟩ := set_shape hset hnc
  have hp : popKey c1._cache
      (funcName ++ ":" ++ argsStr a ++ ":" ++ kwargsStr a) =
      some (some b, l) := by
    rw [hcache]
    exact popKey_append_fresh (some b) hfl
  have ht : lkp c1._timestamps
      (funcName ++ ":" ++ argsStr a ++ ":" ++ kwargsStr a) = some t := by
    rw [hts, lkp_odAssign]
    simp
  have hlive' : ¬ t' - t > c1._ttl := by
    rw [httl]
    omega
  exact ⟨_, wrapper_hit (get_eq_live hp ht hlive')⟩

/-- C7 witness: a concrete instantiation of `C7_default_key_roundtrip`. -/
theorem C7_witness :
    wKey "f" none (fun _ : Nat => "(1,)") (fun _ => "{}") 1 =
      "f" ++ ":" ++ "(1,)" ++ ":" ++ "{}" ∧
    ∃ c2, wrapper "f" none (fun _ : Nat => "(1,)") (fun _ => "{}")
      (fun _ => some 3)
      (LocalCache.mk [("f:(1,):{}", some 5)] [("f:(1,):{}", 0)] 2 100) 1
      50 = some ⟨some 5, c2, false⟩ :=
  @C7_default_key_roundtrip Nat Nat "f" (fun _ => "(1,)") (fun _ => "{}")
    (fun _ => some 3) 1 5 (LocalCache.mk [] [] 2 100)
    (LocalCache.mk [("f:(1,):{}", some 5)] [("f:(1,):{}", 0)] 2 100) 0 50
    (by decide) (by decide) (by decide)

/-- C10: a wrapped call whose underlying result is `None` stores the
`None` via `set` (the entry is present holding `None`), yet every
subsequent call with the same arguments — whatever its time — treats the
cached `None` as a miss and invokes the underlying function again. -/
theorem C10_none_never_cached {γ β : Type} (funcName : String)
    (cacheKeyFn : Option (γ → String)) (argsStr kwargsStr : γ → String)
    (f : γ → Option β) (a : γ) (ttl t1 t2 : Int) (hfa : f a = none) :
    ∃ r1 r2 : CallResult β γ,
      wrapper funcName cacheKeyFn argsStr kwargsStr f (cachedInit ttl) a
        t1 = some r1 ∧ r1.invoked = true ∧ r1.result = none ∧
      lkp r1.cache._cache (wKey funcName cacheKeyFn argsStr kwargsStr a) =
        some none ∧
      wrapper funcName cacheKeyFn argsStr kwargsStr f r1.cache a t2 =
        some r2 ∧ r2.invoked = true := by
  set key := wKey funcName cacheKeyFn argsStr kwargsStr a with hkeydef
  have hget0 : (cachedInit ttl : LocalCache (Option β)).get key t1 =
      some (none, cachedInit ttl) := get_eq_absent t1 rfl
  set c1 : LocalCache (Option β) :=
    LocalCache.mk [(key, f a)] [(key, t1)] 1000 ttl with hc1def
  have hset0 : (cachedInit ttl : LocalCache (Option β)).set key (f a) t1 =
      some c1 :=
    set_eq_fresh_room
      (show hasKey (cachedInit ttl : LocalCache (Option β))._cache key =
        false from rfl)
      (by show (0 : Nat) < 1000; decide) (f a) t1
  have hw1 : wrapper funcName cacheKeyFn argsStr kwargsStr f
      (cachedInit ttl) a t1 = some ⟨f a, c1, true⟩ :=
    wrapper_miss hget0 rfl hset0
  have hstored : lkp c1._cache key = some none := by
    show lkp [(key, f a)] key = some none
    simp [lkp, hfa]
  have hp1 : popKey c1._cache key = some (f a, []) := by
    show popKey [(key, f a)] key = some (f a, [])
    simp [popKey]
  have hpts1 : popKey c1._timestamps key = some (t1, []) := by
    show popKey [(key, t1)] key = some (t1, [])
    simp [popKey]
  by_cases hexp : t2 - t1 > ttl
  · have hget1 : c1.get key t2 =
        some (none, LocalCache.mk [] [] 1000 ttl) :=
      get_eq_expired hp1 hpts1 (show t2 - t1 > c1._ttl from hexp)
    have hset1 : (LocalCache.mk [] [] 1000 ttl :
        LocalCache (Option β)).set key (f a) t2 =
        some (LocalCache.mk [(key, f a)] [(key, t2)] 1000 ttl) :=
      set_eq_fresh_room
        (show hasKey ([] : List (String × Option β)) key = false from rfl)
        (by show (0 : Nat) < 1000; decide) (f a) t2
    have hw2 : wrapper funcName cacheKeyFn argsStr kwargsStr f c1 a t2 =
        some ⟨f a, LocalCache.mk [(key, f a)] [(key, t2)] 1000 ttl,
          true⟩ :=
      wrapper_miss hget1 rfl hset1
    exact ⟨_, _, hw1, rfl, hfa, hstored, hw2, rfl⟩
  · have hget1 : c1.get key t2 = some (some (f a), c1) :=
      get_eq_live hp1
        (show lkp c1._timestamps key = some t1 by
          show lkp [(key, t1)] key = some t1
          simp [lkp])
        (show ¬ t2 - t1 > c1._ttl from hexp)
    have hset1 := set_eq_present hp1 (f a) t2
    have hw2 := wrapper_miss hget1 hfa hset1
    exact ⟨_, _, hw1, rfl, hfa, hstored, hw2, rfl⟩

/-- C10 witness: a concrete instantiation of `C10_none_never_cached`. -/
theorem C10_witness :
    ∃ r1 r2 : CallResult Nat Nat,
      wrapper "g" none (fun _ => "(1,)") (fun _ => "{}")
        (fun _ => none) (cachedInit 100) 1 0 = some r1 ∧
      r1.invoked = true ∧ r1.result = none ∧
      lkp r1.cache._cache (wKey "g" none (fun _ => "(1,)") (fun _ => "{}")
        1) = some none ∧
      wrapper "g" none (fun _ => "(1,)") (fun _ => "{}")
        (fun _ => none) r1.cache 1 1 = some r2 ∧
      r2.invoked = true :=
  C10_none_never_cached "g" none (fun _ => "(1,)") (fun _ => "{}")
    (fun _ => none) 1 100 0 1 (by decide)
